import Mathlib

/-!  Formal model of the prompt-templating and response-evaluation harness of the
vertex-ai-gcp-notebook repository, together with proofs of its stated properties.

The response scorer is the notebooks' `get_fuzzy_match` (05 - Question
Answering.ipynb), which delegates to `fuzz.partial_ratio`; that algorithm
(fuzzywuzzy 0.18 over difflib's `SequenceMatcher`) is modelled here over
`List Char`, with exact rational arithmetic in place of the library's
floating-point ratios (the float literal `0.995` is modelled as `199/200`).  -/

/-- Python's `int(round(n / d))` on the exact rational `n / d`:
rounding half to even (`utils.intr` applied to `100 * ratio`). -/
def intr (n d : Nat) : Nat :=
  let q := n / d
  let r := n % d
  if 2 * r < d then q
  else if d < 2 * r then q + 1
  else if q % 2 = 0 then q else q + 1

/-- Positions of character `c` in `b`, ascending (difflib's `b2j` chains). -/
def posList (b : List Char) (c : Char) : List Nat :=
  (List.range b.length).filter (fun j => b[j]? = some c)

/-- difflib autojunk: when `len(b) >= 200`, elements occurring more than
`len(b) // 100 + 1` times are "popular" and dropped from `b2j`. -/
def isPopular (b : List Char) (c : Char) : Bool :=
  decide (200 ≤ b.length) && decide (b.length / 100 + 1 < (posList b c).length)

/-- difflib's `b2j` with autojunk applied. -/
def b2j (b : List Char) (c : Char) : List Nat :=
  if isPopular b c then [] else posList b c

/-- One inner-loop step of `SequenceMatcher.find_longest_match`:
`k = j2len.get(j - 1, 0) + 1; newj2len[j] = k`; the best block is replaced when
`k > bestsize`, with `besti = i - k + 1`, `bestj = j - k + 1` (the truncating
`Nat` subtractions agree with Python since `k ≤ i + 1` and `k ≤ j + 1` hold on
every reachable state).  A missing dict entry is the `j = 0` case (`j - 1 = -1`). -/
def flmStep (oldLen : Nat → Nat) (i j : Nat) (newLen : Nat → Nat) (bi bj bs : Nat) :
    (Nat → Nat) × Nat × Nat × Nat :=
  let k := (if j = 0 then 0 else oldLen (j - 1)) + 1
  let newLen' := fun j' => if j' = j then k else newLen j'
  if bs < k then (newLen', i + 1 - k, j + 1 - k, k) else (newLen', bi, bj, bs)

/-- Inner loop of `find_longest_match` over the positions of `a[i]` in `b`
(already restricted to `blo ≤ j < bhi`, which is what the `continue`/`break`
pair does on the ascending position list). -/
def flmInner (oldLen : Nat → Nat) (i : Nat) :
    List Nat → (Nat → Nat) × Nat × Nat × Nat → (Nat → Nat) × Nat × Nat × Nat
  | [], st => st
  | j :: js, st => flmInner oldLen i js (flmStep oldLen i j st.1 st.2.1 st.2.2.1 st.2.2.2)

/-- Outer loop of `find_longest_match` over the rows `alo, …, ahi-1`; the state is
`(j2len, besti, bestj, bestsize)` and each row restarts `newj2len` empty. -/
def flmRows (a b : List Char) (blo bhi : Nat) :
    List Nat → (Nat → Nat) × Nat × Nat × Nat → Nat × Nat × Nat
  | [], st => (st.2.1, st.2.2.1, st.2.2.2)
  | i :: is, st =>
    flmRows a b blo bhi is
      (flmInner st.1 i
        ((b2j b (a.getD i ' ')).filter (fun j => decide (blo ≤ j) && decide (j < bhi)))
        ((fun _ => 0), st.2.1, st.2.2.1, st.2.2.2))

/-- `while besti > alo and bestj > blo and cond(b[bestj-1]) and a[besti-1] == b[bestj-1]`:
downward extension of the best block (structural on `besti`). -/
def extendLower (cond : Char → Bool) (a b : List Char) (alo blo : Nat) :
    Nat → Nat → Nat → Nat × Nat × Nat
  | 0, bj, bs => (0, bj, bs)
  | bi + 1, bj, bs =>
    if alo < bi + 1 ∧ blo < bj ∧
        (match a[bi]?, b[bj - 1]? with
         | some ca, some cb => cond cb && decide (ca = cb)
         | _, _ => false) = true then
      extendLower cond a b alo blo bi (bj - 1) (bs + 1)
    else (bi + 1, bj, bs)

/-- Upward extension loop body; `gas` is the remaining room `ahi - (besti + bestsize)`,
which the first guard conjunct keeps in sync, making the recursion structural. -/
def extendHigherGo (cond : Char → Bool) (a b : List Char) (ahi bhi bi bj : Nat) :
    Nat → Nat → Nat
  | 0, bs => bs
  | gas + 1, bs =>
    if bi + bs < ahi ∧ bj + bs < bhi ∧
        (match a[bi + bs]?, b[bj + bs]? with
         | some ca, some cb => cond cb && decide (ca = cb)
         | _, _ => false) = true then
      extendHigherGo cond a b ahi bhi bi bj gas (bs + 1)
    else bs

/-- `while besti+bestsize < ahi and bestj+bestsize < bhi and cond(b[bestj+bestsize])
and a[besti+bestsize] == b[bestj+bestsize]: bestsize += 1`. -/
def extendHigher (cond : Char → Bool) (a b : List Char) (ahi bhi bi bj bs : Nat) : Nat :=
  extendHigherGo cond a b ahi bhi bi bj (ahi - (bi + bs)) bs

/-- difflib `SequenceMatcher(None, a, b).find_longest_match(alo, ahi, blo, bhi)`:
the dynamic-programming main loop, then the four extension loops
(non-junk downward/upward, then junk downward/upward). -/
def findLongestMatch (a b : List Char) (alo ahi blo bhi : Nat) : Nat × Nat × Nat :=
  match flmRows a b blo bhi (List.range' alo (ahi - alo)) ((fun _ => 0), alo, blo, 0) with
  | (bi0, bj0, bs0) =>
    match extendLower (fun c => !(isPopular b c)) a b alo blo bi0 bj0 bs0 with
    | (bi1, bj1, bs1) =>
      let bs2 := extendHigher (fun c => !(isPopular b c)) a b ahi bhi bi1 bj1 bs1
      match extendLower (fun c => isPopular b c) a b alo blo bi1 bj1 bs2 with
      | (bi3, bj3, bs3) =>
        (bi3, bj3, extendHigher (fun c => isPopular b c) a b ahi bhi bi3 bj3 bs3)

/-- difflib `get_matching_blocks`'s divide-and-conquer queue; `fuel` bounds the
recursion depth by the length of the `a`-interval, which shrinks strictly on
each side, so `fuel = len(a)` at the top is always sufficient. -/
def matchingBlocksGo (a b : List Char) : Nat → Nat → Nat → Nat → Nat → List (Nat × Nat × Nat)
  | 0, _, _, _, _ => []
  | fuel + 1, alo, ahi, blo, bhi =>
    match findLongestMatch a b alo ahi blo bhi with
    | (i, j, k) =>
      if k = 0 then []
      else
        (if alo < i ∧ blo < j then matchingBlocksGo a b fuel alo i blo j else [])
          ++ (i, j, k) ::
            (if i + k < ahi ∧ j + k < bhi then
              matchingBlocksGo a b fuel (i + k) ahi (j + k) bhi
             else [])

/-- Lexicographic order on blocks, matching Python's tuple sort in
`get_matching_blocks` (the recursion already emits blocks in this order). -/
def blockLe (x y : Nat × Nat × Nat) : Bool :=
  decide (x.1 < y.1) ||
    (decide (x.1 = y.1) &&
      (decide (x.2.1 < y.2.1) || (decide (x.2.1 = y.2.1) && decide (x.2.2 ≤ y.2.2))))

def insertBlock (x : Nat × Nat × Nat) : List (Nat × Nat × Nat) → List (Nat × Nat × Nat)
  | [] => [x]
  | y :: ys => if blockLe x y then x :: y :: ys else y :: insertBlock x ys

/-- Stable insertion sort standing in for Python's `matching_blocks.sort()`
(on the total lexicographic order the sorted list is unique, so any stable
sort agrees with Python's). -/
def sortBlocks : List (Nat × Nat × Nat) → List (Nat × Nat × Nat)
  | [] => []
  | x :: xs => insertBlock x (sortBlocks xs)

/-- The adjacent-block merging pass of `get_matching_blocks` (`non_adjacent`). -/
def mergeLoop (i1 j1 k1 : Nat) : List (Nat × Nat × Nat) → List (Nat × Nat × Nat)
  | [] => if k1 = 0 then [] else [(i1, j1, k1)]
  | (i2, j2, k2) :: rest =>
    if i1 + k1 = i2 ∧ j1 + k1 = j2 then mergeLoop i1 j1 (k1 + k2) rest
    else if k1 = 0 then mergeLoop i2 j2 k2 rest
    else (i1, j1, k1) :: mergeLoop i2 j2 k2 rest

/-- difflib `get_matching_blocks`, terminal sentinel `(len(a), len(b), 0)` included. -/
def getMatchingBlocks (a b : List Char) : List (Nat × Nat × Nat) :=
  mergeLoop 0 0 0 (sortBlocks (matchingBlocksGo a b a.length 0 a.length 0 b.length))
    ++ [(a.length, b.length, 0)]

def sumSizes (blocks : List (Nat × Nat × Nat)) : Nat :=
  (blocks.map (fun blk => blk.2.2)).sum

/-- `SequenceMatcher.ratio()`'s match count `M`: total size of the matching blocks. -/
def matchesCount (a b : List Char) : Nat :=
  sumSizes (getMatchingBlocks a b)

/-- Running maximum of the window ratios `2m/t`, compared exactly
(`m0/t0 < m/t  ↔  m0 * t < m * t0`; Python keeps the first maximum, hence `<`). -/
def updateBest : Option (Nat × Nat) → Nat → Nat → Nat × Nat
  | none, m, t => (m, t)
  | some (m0, t0), m, t => if m0 * t < m * t0 then (m, t) else (m0, t0)

/-- fuzzywuzzy `partial_ratio`'s block loop: slide a `len(shorter)`-wide window of
`longer` to each matching block's alignment `long_start = max(j - i, 0)`,
early-return 100 when the window ratio exceeds 0.995 (the ratio of two empty
slices is 1.0), else round `100 * max(scores)` half-to-even.  `getMatchingBlocks`
always ends with the sentinel block, so the list is never empty; the `[], none`
case is unreachable. -/
def prLoop (shorter longer : List Char) :
    List (Nat × Nat × Nat) → Option (Nat × Nat) → Nat
  | [], none => 0
  | [], some (m, t) => intr (200 * m) t
  | (i, j, _) :: rest, best =>
    let lsub := (longer.drop (j - i)).take shorter.length
    let m := matchesCount shorter lsub
    let t := shorter.length + lsub.length
    if t = 0 ∨ 199 * t < 400 * m then 100
    else prLoop shorter longer rest (some (updateBest best m t))

/-- fuzzywuzzy 0.18 `fuzz.partial_ratio` (including its `check_for_equal`
guard returning 100 on identical inputs), as invoked by `get_fuzzy_match`. -/
def fuzzPartialRatio (s1 s2 : List Char) : Nat :=
  if s1 = s2 then 100
  else if s1.length ≤ s2.length then
    prLoop s1 s2 (getMatchingBlocks s1 s2) none
  else
    prLoop s2 s1 (getMatchingBlocks s2 s1) none

/-- The harness's `score(expected, predicted)`: the notebooks' `get_fuzzy_match`,
i.e. `fuzz.partial_ratio(answer_groundtruth, answer_prediction)`. -/
def score (expected predicted : String) : Nat :=
  fuzzPartialRatio expected.toList predicted.toList

/-- The spec's literal scoring formula — `round(200 * M / T)` with `T` the total
length of BOTH strings — stated for comparison with `score` (the source's
partial-ratio normalises by the aligned window, not by `T`). -/
def specClaimScore (expected predicted : String) : Nat :=
  let s1 := expected.toList
  let s2 := predicted.toList
  if s1.length ≤ s2.length then
    intr (200 * matchesCount s1 s2) (s1.length + s2.length)
  else
    intr (200 * matchesCount s2 s1) (s1.length + s2.length)

/-- Bound invariant carried by the `find_longest_match` state: the best block
starts no earlier than `alo`/`blo` and ends within `A`/`B` (at the top level
`A = max alo ahi`, `B = max blo bhi`). -/
abbrev BestIn (alo blo A B bi bj bs : Nat) : Prop :=
  alo ≤ bi ∧ blo ≤ bj ∧ bi + bs ≤ A ∧ bj + bs ≤ B

/-- Invariant on a `j2len` row map: every nonzero entry `v` at column `j'`
satisfies `v + alo ≤ bound` and `v + blo ≤ j' + 1` (run lengths fit above
`alo`/`blo`). -/
abbrev JLenInv (alo blo bound : Nat) (f : Nat → Nat) : Prop :=
  ∀ j', f j' ≠ 0 → f j' + alo ≤ bound ∧ f j' + blo ≤ j' + 1

/-! ## Templating (PromptBuilder)

Modelled from the spec: the notebooks build prompts with Python f-strings
(`get_answer`, `get_sentiment`); the spec abstracts this into `render(template,
bindings)` over a Template, "an ordered sequence of text segments and named
placeholders", with `MissingBindingError` for uncovered placeholders. -/

/-- Modelled from the spec: the harness error taxonomy
(`MissingBindingError`, `EmptyBatchError`); neither exists in the notebooks,
which always supply every binding and never score an empty batch. -/
inductive HarnessError where
  | MissingBindingError (name : String)
  | EmptyBatchError
deriving DecidableEq

/-- Modelled from the spec: one template element — a literal text segment or a
named placeholder (`\x7bquestion\x7d` etc.). -/
inductive Segment where
  | lit (s : String)
  | hole (name : String)
deriving DecidableEq

/-- The placeholder names of a template, in order of appearance. -/
def holesOf : List Segment → List String
  | [] => []
  | .lit _ :: rest => holesOf rest
  | .hole n :: rest => n :: holesOf rest

/-- Modelled from the spec: `render(template, bindings) -> string`; every
placeholder is substituted by its bound value, literals are kept verbatim and
in order, and the first unbound placeholder raises `MissingBindingError`
naming it. -/
def render (t : List Segment) (b : String → Option String) : Except HarnessError String :=
  match t with
  | [] => .ok ("")
  | .lit s :: rest =>
    match render rest b with
    | .error e => .error e
    | .ok out => .ok (s ++ out)
  | .hole n :: rest =>
    match b n with
    | none => .error (.MissingBindingError n)
    | some v =>
      match render rest b with
      | .error e => .error e
      | .ok out => .ok (v ++ out)

/-- The fully substituted text of a template: literals verbatim and in order,
placeholders replaced by their bound values. -/
def substString (t : List Segment) (b : String → Option String) : String :=
  match t with
  | [] => ""
  | .lit s :: rest => s ++ substString rest b
  | .hole n :: rest => ((b n).getD ("")) ++ substString rest b

/-- Placeholder re-extraction scanner over the output text: collects the names
written between a `\x7b` and the next `\x7d` (an unterminated opener yields
nothing).  Used for the spec's round-trip property. -/
def scanPlaceholders : List Char → Option (List Char) → List String
  | [], _ => []
  | c :: rest, none =>
    if c = '\x7b' then scanPlaceholders rest (some []) else scanPlaceholders rest none
  | c :: rest, some acc =>
    if c = '\x7d' then String.mk acc :: scanPlaceholders rest none
    else scanPlaceholders rest (some (acc ++ [c]))

/-- Re-extract the placeholders occurring in a rendered string. -/
def extractPlaceholders (s : String) : List String :=
  scanPlaceholders s.toList none

/-- The bindings cover every placeholder of the template. -/
def Covers (t : List Segment) (b : String → Option String) : Prop :=
  ∀ n ∈ holesOf t, (b n).isSome

/-- No literal segment and no substituted value contains an opening brace
(the condition under which the round-trip property can hold at all). -/
def BraceFree (t : List Segment) (b : String → Option String) : Prop :=
  ∀ seg ∈ t,
    match seg with
    | .lit s => '\x7b' ∉ s.toList
    | .hole n => ∀ v, b n = some v → '\x7b' ∉ v.toList

/-! ## Records, scoring a batch and aggregation (ResponseScorer) -/

/-- Modelled from the spec: `EvaluationRecord` — `input`, optional `expected`,
optional `predicted` (populated after the external call), optional `score`
(populated only when `expected` is present). -/
structure EvaluationRecord where
  input : String
  expected : Option String
  predicted : Option String
  score : Option Nat
deriving DecidableEq

/-- Whether a record has both `expected` and `predicted` populated. -/
def scorable (r : EvaluationRecord) : Bool :=
  r.expected.isSome && r.predicted.isSome

/-- The per-record scores that are present, in batch order. -/
def presentScores (records : List EvaluationRecord) : List Nat :=
  records.filterMap (fun r => r.score)

/-- Modelled from the spec: `aggregate(records) -> number`, the arithmetic mean
of all present per-record scores; fails with `EmptyBatchError` if no record has
both `expected` and `predicted` populated.  (The notebooks only ever compute
`qa_data_df["match_score"].mean()`.) -/
def aggregate (records : List EvaluationRecord) : Except HarnessError ℚ :=
  if records.all (fun r => !(scorable r)) then .error .EmptyBatchError
  else
    .ok (((presentScores records).map (fun n => (n : ℚ))).sum / (presentScores records).length)

/-- Modelled from the spec's control flow: render one request per item, invoke
the external text-generation collaborator `gen`, score against the ground truth
when present; processing halts at the first render failure. -/
def runBatch (gen : String → String) (t : List Segment) (mkB : String → String → Option String) :
    List (String × Option String) → Except HarnessError (List EvaluationRecord)
  | [] => .ok []
  | (inp, expd) :: rest =>
    match render t (mkB inp) with
    | .error e => .error e
    | .ok p =>
      match runBatch gen t mkB rest with
      | .error e => .error e
      | .ok recs =>
        .ok ({ input := inp, expected := expd, predicted := some (gen p),
               score := expd.map (fun e => score e (gen p)) } :: recs)

/-! ## Bounded feedback loop (02 - Code Completion.ipynb)

The source loop is
`i = 0; while(i<3): response = model.predict(prefix=prefix); prefix = response.text; i+=1`;
the spec generalises it to N iterations with a fold `next_prompt`. -/

/-- The bounded feedback loop: `n` iterations from seed prompt `pfx`
(the notebook's `prefix`); each iteration sends the current prompt to `gen`
and replaces it with `next` of the response (`next = id` in the notebook).
Returns the final prompt text together with the list of prompts actually
sent to `gen`, in order — one entry per invocation of `gen`. -/
def feedbackLoop (gen next : String → String) : Nat → String → String × List String
  | 0, pfx => (pfx, [])
  | n + 1, pfx =>
    match feedbackLoop gen next n (next (gen pfx)) with
    | (final, sent) => (final, pfx :: sent)

/-! ## Per-record prompt builders from the source f-strings -/

/-- Fixed literal text preceding the interpolated question in `get_answer`. -/
def qaPre : String :=
  "Answer the following question as precise as possible.\n\n\n            question: "

/-- Fixed literal text following the interpolated question in `get_answer`. -/
def qaPost : String :=
  "\n            answer:\n              "

/-- `get_answer`'s prompt construction (05 - Question Answering.ipynb):
the f-string interpolates `row` between the fixed literal segments. -/
def get_answer_prompt (row : String) : String :=
  "Answer the following question as precise as possible.\n\n\n            question: "
    ++ row ++ "\n            answer:\n              "

/-- Fixed literal text preceding the interpolated review in `get_sentiment`. -/
def sentimentPre : String :=
  "Classify the sentiment of the following review as \"positive\", \"neutral\" and \"negative\". \n\n\n                review: "

/-- Fixed literal text following the interpolated review in `get_sentiment`. -/
def sentimentPost : String :=
  " \n\n                sentiment:\n              "

/-- `get_sentiment`'s prompt construction (04 - Text Classification.ipynb). -/
def get_sentiment_prompt (row : String) : String :=
  "Classify the sentiment of the following review as \"positive\", \"neutral\" and \"negative\". \n\n\n                review: "
    ++ row ++ " \n\n                sentiment:\n              "

/-! ## Lemmas: the scorer stays within `[0, 100]` -/

theorem intr_le_100 (n d : Nat) (h : n ≤ 100 * d) : intr n d ≤ 100 := by
  rcases Nat.eq_zero_or_pos d with hd | hd
  · subst hd
    have hn : n = 0 := by omega
    subst hn
    decide
  · have hdm := Nat.div_add_mod n d
    have hq : n / d ≤ 100 := by
      by_contra hc
      push_neg at hc
      have h1 : 101 * d ≤ n / d * d := Nat.mul_le_mul_right d (by omega)
      have h2 : n / d * d ≤ n := Nat.div_mul_le_self n d
      omega
    have hmod : n % d < d := Nat.mod_lt _ hd
    rcases Nat.lt_or_ge (n / d) 100 with hq' | hq'
    · simp only [intr]
      split_ifs <;> omega
    · have hq100 : n / d = 100 := by omega
      have hr0 : n % d = 0 := by
        rw [hq100] at hdm
        omega
      simp only [intr]
      split_ifs <;> omega

theorem flmStep_inv (oldLen : Nat → Nat) (alo blo A B i j : Nat)
    (hiA : i < A) (halo : alo ≤ i) (hj : blo ≤ j) (hjB : j < B)
    (hold : JLenInv alo blo i oldLen)
    (newLen : Nat → Nat) (bi bj bs : Nat)
    (hnew : JLenInv alo blo (i + 1) newLen)
    (hbest : BestIn alo blo A B bi bj bs)
    (f : Nat → Nat) (bi' bj' bs' : Nat)
    (heq : flmStep oldLen i j newLen bi bj bs = (f, bi', bj', bs')) :
    JLenInv alo blo (i + 1) f ∧ BestIn alo blo A B bi' bj' bs' := by
  have hk1 : (if j = 0 then 0 else oldLen (j - 1)) + 1 + alo ≤ i + 1 := by
    by_cases h0 : j = 0
    · simp only [if_pos h0]
      omega
    · simp only [if_neg h0]
      by_cases hz : oldLen (j - 1) = 0
      · rw [hz]
        omega
      · have := (hold _ hz).1
        omega
  have hk2 : (if j = 0 then 0 else oldLen (j - 1)) + 1 + blo ≤ j + 1 := by
    by_cases h0 : j = 0
    · have hblo : blo = 0 := by omega
      simp only [if_pos h0, hblo]
      omega
    · simp only [if_neg h0]
      by_cases hz : oldLen (j - 1) = 0
      · rw [hz]
        omega
      · have := (hold _ hz).2
        omega
  obtain ⟨hb1, hb2, hb3, hb4⟩ := hbest
  have hJ : JLenInv alo blo (i + 1)
      (fun j' => if j' = j then (if j = 0 then 0 else oldLen (j - 1)) + 1 else newLen j') := by
    intro j' hne
    simp only [] at hne ⊢
    by_cases hj' : j' = j
    · rw [if_pos hj'] at hne ⊢
      subst hj'
      exact ⟨by omega, by omega⟩
    · rw [if_neg hj'] at hne ⊢
      exact hnew j' hne
  simp only [flmStep] at heq
  by_cases hlt : bs < (if j = 0 then 0 else oldLen (j - 1)) + 1
  · rw [if_pos hlt] at heq
    simp only [Prod.mk.injEq] at heq
    obtain ⟨h1, h2, h3, h4⟩ := heq
    subst h1
    subst h2
    subst h3
    subst h4
    exact ⟨hJ, by omega, by omega, by omega, by omega⟩
  · rw [if_neg hlt] at heq
    simp only [Prod.mk.injEq] at heq
    obtain ⟨h1, h2, h3, h4⟩ := heq
    subst h1
    subst h2
    subst h3
    subst h4
    exact ⟨hJ, hb1, hb2, hb3, hb4⟩


theorem flmInner_inv (oldLen : Nat → Nat) (alo blo bhi A B i : Nat)
    (hiA : i < A) (halo : alo ≤ i) (hB : bhi ≤ B)
    (hold : JLenInv alo blo i oldLen) :
    ∀ (js : List Nat) (st : (Nat → Nat) × Nat × Nat × Nat),
      (∀ j ∈ js, blo ≤ j ∧ j < bhi) →
      JLenInv alo blo (i + 1) st.1 →
      BestIn alo blo A B st.2.1 st.2.2.1 st.2.2.2 →
      JLenInv alo blo (i + 1) (flmInner oldLen i js st).1 ∧
        BestIn alo blo A B (flmInner oldLen i js st).2.1
          (flmInner oldLen i js st).2.2.1 (flmInner oldLen i js st).2.2.2 := by
  intro js
  induction js with
  | nil =>
    intro st _ h1 h2
    exact ⟨h1, h2⟩
  | cons j js ih =>
    intro st hjs h1 h2
    have hmem : blo ≤ j ∧ j < bhi := hjs j (by simp)
    rcases hst : flmStep oldLen i j st.1 st.2.1 st.2.2.1 st.2.2.2 with ⟨f, bi', bj', bs'⟩
    have hstep := flmStep_inv oldLen alo blo A B i j hiA halo hmem.1 (by omega) hold
      st.1 st.2.1 st.2.2.1 st.2.2.2 h1 h2 f bi' bj' bs' hst
    have hrest := ih (f, bi', bj', bs') (fun j' hj' => hjs j' (by simp [hj']))
      hstep.1 hstep.2
    simpa [flmInner, hst] using hrest

theorem flmRows_inv (a b : List Char) (alo blo bhi A B : Nat) (hB : bhi ≤ B) :
    ∀ (n s : Nat) (st : (Nat → Nat) × Nat × Nat × Nat),
      alo ≤ s → s + n ≤ A →
      JLenInv alo blo s st.1 →
      BestIn alo blo A B st.2.1 st.2.2.1 st.2.2.2 →
      BestIn alo blo A B (flmRows a b blo bhi (List.range' s n) st).1
        (flmRows a b blo bhi (List.range' s n) st).2.1
        (flmRows a b blo bhi (List.range' s n) st).2.2 := by
  intro n
  induction n with
  | zero =>
    intro s st _ _ _ h2
    simpa [flmRows] using h2
  | succ n ih =>
    intro s st hs hsn h1 h2
    have hjs : ∀ j ∈ (b2j b (a.getD s ' ')).filter
        (fun j => decide (blo ≤ j) && decide (j < bhi)), blo ≤ j ∧ j < bhi := by
      intro j hj
      rw [List.mem_filter] at hj
      have := hj.2
      simp only [Bool.and_eq_true, decide_eq_true_eq] at this
      exact this
    have hzero : JLenInv alo blo (s + 1) (fun _ => 0) := by
      intro j' hj'
      simp at hj'
    have hinner := flmInner_inv st.1 alo blo bhi A B s (by omega) hs hB h1
      ((b2j b (a.getD s ' ')).filter (fun j => decide (blo ≤ j) && decide (j < bhi)))
      ((fun _ => 0), st.2.1, st.2.2.1, st.2.2.2) hjs hzero h2
    have hrec := ih (s + 1)
      (flmInner st.1 s
        ((b2j b (a.getD s ' ')).filter (fun j => decide (blo ≤ j) && decide (j < bhi)))
        ((fun _ => 0), st.2.1, st.2.2.1, st.2.2.2))
      (by omega) (by omega) hinner.1 hinner.2
    rw [List.range'_succ]
    simpa [flmRows] using hrec

theorem extendLower_inv (cond : Char → Bool) (a b : List Char) (alo blo A B : Nat) :
    ∀ (bi bj bs : Nat), alo ≤ bi → blo ≤ bj → bi + bs ≤ A → bj + bs ≤ B →
      BestIn alo blo A B (extendLower cond a b alo blo bi bj bs).1
        (extendLower cond a b alo blo bi bj bs).2.1
        (extendLower cond a b alo blo bi bj bs).2.2 := by
  intro bi
  induction bi with
  | zero =>
    intro bj bs h1 h2 h3 h4
    simp only [extendLower]
    exact ⟨h1, h2, h3, h4⟩
  | succ bi ih =>
    intro bj bs h1 h2 h3 h4
    rw [extendLower]
    split_ifs with h
    · obtain ⟨ha, hb, -⟩ := h
      exact ih (bj - 1) (bs + 1) (by omega) (by omega) (by omega) (by omega)
    · exact ⟨h1, h2, h3, h4⟩

theorem extendHigherGo_inv (cond : Char → Bool) (a b : List Char)
    (ahi bhi bi bj A B : Nat) (hA : ahi ≤ A) (hB : bhi ≤ B) :
    ∀ (gas bs : Nat), bi + bs ≤ A → bj + bs ≤ B →
      bi + extendHigherGo cond a b ahi bhi bi bj gas bs ≤ A ∧
        bj + extendHigherGo cond a b ahi bhi bi bj gas bs ≤ B := by
  intro gas
  induction gas with
  | zero =>
    intro bs h1 h2
    exact ⟨h1, h2⟩
  | succ gas ih =>
    intro bs h1 h2
    rw [extendHigherGo]
    split_ifs with h
    · obtain ⟨ha, hb, -⟩ := h
      exact ih (bs + 1) (by omega) (by omega)
    · exact ⟨h1, h2⟩

theorem findLongestMatch_inv (a b : List Char) (alo ahi blo bhi : Nat) :
    BestIn alo blo (max alo ahi) (max blo bhi)
      (findLongestMatch a b alo ahi blo bhi).1
      (findLongestMatch a b alo ahi blo bhi).2.1
      (findLongestMatch a b alo ahi blo bhi).2.2 := by
  have hzero : JLenInv alo blo alo (fun _ => 0) := by
    intro j' hj'
    simp at hj'
  have h0 : BestIn alo blo (max alo ahi) (max blo bhi) alo blo 0 :=
    ⟨le_refl _, le_refl _, by omega, by omega⟩
  have hmain := flmRows_inv a b alo blo bhi (max alo ahi) (max blo bhi)
    (Nat.le_max_right _ _) (ahi - alo) alo ((fun _ => 0), alo, blo, 0)
    (le_refl _) (by omega) hzero h0
  rcases hm0 : flmRows a b blo bhi (List.range' alo (ahi - alo))
      ((fun _ => 0), alo, blo, 0) with ⟨bi0, bj0, bs0⟩
  rw [hm0] at hmain
  simp only [] at hmain
  obtain ⟨hm1, hm2, hm3, hm4⟩ := hmain
  rcases he1 : extendLower (fun c => !(isPopular b c)) a b alo blo bi0 bj0 bs0
    with ⟨bi1, bj1, bs1⟩
  have hlow1 := extendLower_inv (fun c => !(isPopular b c)) a b alo blo
    (max alo ahi) (max blo bhi) bi0 bj0 bs0 hm1 hm2 hm3 hm4
  rw [he1] at hlow1
  obtain ⟨hl1, hl2, hl3, hl4⟩ := hlow1
  have hhigh1 := extendHigherGo_inv (fun c => !(isPopular b c)) a b ahi bhi bi1 bj1
    (max alo ahi) (max blo bhi) (Nat.le_max_right _ _) (Nat.le_max_right _ _)
    (ahi - (bi1 + bs1)) bs1 hl3 hl4
  rcases he2 : extendLower (fun c => isPopular b c) a b alo blo bi1 bj1
      (extendHigher (fun c => !(isPopular b c)) a b ahi bhi bi1 bj1 bs1)
    with ⟨bi3, bj3, bs3⟩
  have hlow2 := extendLower_inv (fun c => isPopular b c) a b alo blo
    (max alo ahi) (max blo bhi) bi1 bj1
    (extendHigher (fun c => !(isPopular b c)) a b ahi bhi bi1 bj1 bs1)
    hl1 hl2 hhigh1.1 hhigh1.2
  rw [he2] at hlow2
  obtain ⟨hn1, hn2, hn3, hn4⟩ := hlow2
  have hhigh2 := extendHigherGo_inv (fun c => isPopular b c) a b ahi bhi bi3 bj3
    (max alo ahi) (max blo bhi) (Nat.le_max_right _ _) (Nat.le_max_right _ _)
    (ahi - (bi3 + bs3)) bs3 hn3 hn4
  have hgoal : findLongestMatch a b alo ahi blo bhi =
      (bi3, bj3, extendHigher (fun c => isPopular b c) a b ahi bhi bi3 bj3 bs3) := by
    simp only [findLongestMatch, hm0, he1, he2]
  rw [hgoal]
  refine ⟨hn1, hn2, ?_, ?_⟩
  · simpa [extendHigher] using hhigh2.1
  · simpa [extendHigher] using hhigh2.2

theorem sumSizes_nil : sumSizes [] = 0 := rfl

theorem sumSizes_cons (x : Nat × Nat × Nat) (l : List (Nat × Nat × Nat)) :
    sumSizes (x :: l) = x.2.2 + sumSizes l := by
  simp [sumSizes]

theorem sumSizes_append (l1 l2 : List (Nat × Nat × Nat)) :
    sumSizes (l1 ++ l2) = sumSizes l1 + sumSizes l2 := by
  simp [sumSizes]

theorem sumSizes_insertBlock (x : Nat × Nat × Nat) (l : List (Nat × Nat × Nat)) :
    sumSizes (insertBlock x l) = x.2.2 + sumSizes l := by
  induction l with
  | nil => simp [insertBlock, sumSizes]
  | cons y ys ih =>
    rw [insertBlock]
    split_ifs
    · rw [sumSizes_cons]
    · rw [sumSizes_cons, ih, sumSizes_cons]
      omega

theorem sumSizes_sortBlocks (l : List (Nat × Nat × Nat)) :
    sumSizes (sortBlocks l) = sumSizes l := by
  induction l with
  | nil => rfl
  | cons x xs ih =>
    rw [sortBlocks, sumSizes_insertBlock, ih, sumSizes_cons]

theorem sumSizes_mergeLoop (l : List (Nat × Nat × Nat)) :
    ∀ i1 j1 k1, sumSizes (mergeLoop i1 j1 k1 l) = k1 + sumSizes l := by
  induction l with
  | nil =>
    intro i1 j1 k1
    rw [mergeLoop]
    split_ifs with h
    · simp [sumSizes, h]
    · simp [sumSizes]
  | cons y rest ih =>
    intro i1 j1 k1
    rcases y with ⟨i2, j2, k2⟩
    rw [mergeLoop]
    split_ifs with h1 h2
    · rw [ih]
      simp only [sumSizes, List.map_cons, List.sum_cons]
      omega
    · rw [ih]
      simp only [sumSizes, List.map_cons, List.sum_cons]
      omega
    · rw [sumSizes_cons, ih]
      simp only [sumSizes, List.map_cons, List.sum_cons]

theorem matchingBlocksGo_sum (a b : List Char) :
    ∀ (fuel alo ahi blo bhi : Nat),
      alo + sumSizes (matchingBlocksGo a b fuel alo ahi blo bhi) ≤ max alo ahi ∧
        blo + sumSizes (matchingBlocksGo a b fuel alo ahi blo bhi) ≤ max blo bhi := by
  intro fuel
  induction fuel with
  | zero =>
    intro alo ahi blo bhi
    rw [matchingBlocksGo, sumSizes_nil]
    omega
  | succ fuel ih =>
    intro alo ahi blo bhi
    rcases hm : findLongestMatch a b alo ahi blo bhi with ⟨i, j, k⟩
    have hgood := findLongestMatch_inv a b alo ahi blo bhi
    rw [hm] at hgood
    simp only [] at hgood
    obtain ⟨hg1, hg2, hg3, hg4⟩ := hgood
    rw [matchingBlocksGo, hm]
    simp only []
    by_cases hk : k = 0
    · rw [if_pos hk, sumSizes_nil]
      omega
    · rw [if_neg hk, sumSizes_append, sumSizes_cons]
      simp only []
      have hL : alo + sumSizes (if alo < i ∧ blo < j then
            matchingBlocksGo a b fuel alo i blo j else []) ≤ i ∧
          blo + sumSizes (if alo < i ∧ blo < j then
            matchingBlocksGo a b fuel alo i blo j else []) ≤ j := by
        split_ifs with hl
        · have h1 := (ih alo i blo j).1
          have h2 := (ih alo i blo j).2
          omega
        · rw [sumSizes_nil]
          omega
      have hR : (i + k) + sumSizes (if i + k < ahi ∧ j + k < bhi then
            matchingBlocksGo a b fuel (i + k) ahi (j + k) bhi else []) ≤ max alo ahi ∧
          (j + k) + sumSizes (if i + k < ahi ∧ j + k < bhi then
            matchingBlocksGo a b fuel (i + k) ahi (j + k) bhi else []) ≤ max blo bhi := by
        split_ifs with hr
        · have h1 := (ih (i + k) ahi (j + k) bhi).1
          have h2 := (ih (i + k) ahi (j + k) bhi).2
          omega
        · rw [sumSizes_nil]
          omega
      omega

theorem matchesCount_le_left (a b : List Char) : matchesCount a b ≤ a.length := by
  unfold matchesCount getMatchingBlocks
  rw [sumSizes_append, sumSizes_mergeLoop, sumSizes_sortBlocks]
  have h := (matchingBlocksGo_sum a b a.length 0 a.length 0 b.length).1
  have hterm : sumSizes [((a.length : Nat), (b.length : Nat), (0 : Nat))] = 0 := by
    simp [sumSizes]
  omega

theorem matchesCount_le_right (a b : List Char) : matchesCount a b ≤ b.length := by
  unfold matchesCount getMatchingBlocks
  rw [sumSizes_append, sumSizes_mergeLoop, sumSizes_sortBlocks]
  have h := (matchingBlocksGo_sum a b a.length 0 a.length 0 b.length).2
  have hterm : sumSizes [((a.length : Nat), (b.length : Nat), (0 : Nat))] = 0 := by
    simp [sumSizes]
  omega

theorem prLoop_le_100 (shorter longer : List Char) :
    ∀ (blocks : List (Nat × Nat × Nat)) (best : Option (Nat × Nat)),
      (∀ m t, best = some (m, t) → 2 * m ≤ t) →
      prLoop shorter longer blocks best ≤ 100 := by
  intro blocks
  induction blocks with
  | nil =>
    intro best hbest
    match best with
    | none => simp [prLoop]
    | some (m, t) =>
      have h2 := hbest m t rfl
      have := intr_le_100 (200 * m) t (by omega)
      simpa [prLoop] using this
  | cons blk rest ih =>
    rcases blk with ⟨i, j, k⟩
    intro best hbest
    rw [prLoop]
    split_ifs with h
    · exact le_refl 100
    · apply ih
      intro m t hmt
      have hwin1 : matchesCount shorter ((longer.drop (j - i)).take shorter.length) ≤
          shorter.length := matchesCount_le_left _ _
      have hwin2 : matchesCount shorter ((longer.drop (j - i)).take shorter.length) ≤
          ((longer.drop (j - i)).take shorter.length).length := matchesCount_le_right _ _
      rcases best with - | ⟨m0, t0⟩
      · simp only [updateBest] at hmt
        injection hmt with hmt
        injection hmt with hmt1 hmt2
        omega
      · simp only [updateBest] at hmt
        split_ifs at hmt
        · injection hmt with hmt
          injection hmt with hmt1 hmt2
          omega
        · injection hmt with hmt
          injection hmt with hmt1 hmt2
          have := hbest m0 t0 rfl
          omega

theorem score_reflexive (X : String) : score X X = 100 := by
  unfold score fuzzPartialRatio
  rw [if_pos rfl]

theorem score_empty_left (Y : String) : score ("") Y = 100 := by
  rcases Y with ⟨ys⟩
  rcases ys with - | ⟨c, cs⟩
  · decide
  · simp [score, fuzzPartialRatio, String.toList, getMatchingBlocks, matchingBlocksGo,
      sortBlocks, mergeLoop, prLoop]

/-- C1 (amended, part 1): for all strings `X`, `Y`, `score(X, Y)` is a number in
`[0, 100]` (the lower bound holds by the `Nat` codomain).  The normalisation is
the partial-ratio convention — `round(200 * M / T)` with `T` the length of the
shorter string plus the length of its aligned window in the longer string — and
NOT `T = len(X) + len(Y)` as the claim states; see `claim_C1_counterexample`. -/
theorem claim_C1_score_range (X Y : String) : score X Y ≤ 100 := by
  unfold score fuzzPartialRatio
  split_ifs with h1 h2
  · exact le_refl 100
  · exact prLoop_le_100 _ _ _ none (by intro m t h; cases h)
  · exact prLoop_le_100 _ _ _ none (by intro m t h; cases h)

set_option maxRecDepth 8000 in
/-- C1 (counterexample): on the source's own example pair, `score` returns 100
while the claim's formula `round(200 * M / T)` with `M = 13` matching characters
(`specClaimScore` computes `M` from the best alignment) and `T = 17 + 13 = 30`
returns 87, so `score` is not `round(200 * M / T)` with `T` the total length. -/
theorem claim_C1_counterexample :
    score ("The Pacific Ocean") ("Pacific Ocean") = 100 ∧
      specClaimScore ("The Pacific Ocean") ("Pacific Ocean") = 87 ∧
      score ("The Pacific Ocean") ("Pacific Ocean") ≠
        specClaimScore ("The Pacific Ocean") ("Pacific Ocean") := by
  refine ⟨by decide, by decide, by decide⟩

/-- C4 (amended): `score(X, X) = 100` for every string `X` (including the empty
string, so `score("", "") = 100`), but for nonempty `Y` the code returns
`score("", Y) = 100`, not 0 as claimed: the empty shorter string trivially
matches an empty window with ratio 1.0, which trips the `> 0.995` early return
of `partial_ratio`.  See `claim_C4_counterexample`. -/
theorem claim_C4_reflexive_and_empty (X Y : String) :
    score X X = 100 ∧ score ("") Y = 100 :=
  ⟨score_reflexive X, score_empty_left Y⟩

/-- C4 (counterexample): the claim states `score("", "abc") = 0`; the code
(fuzzywuzzy `partial_ratio`) returns 100. -/
theorem claim_C4_counterexample :
    score ("") ("abc") = 100 ∧ score ("") ("abc") ≠ 0 := by
  refine ⟨by decide, by decide⟩

set_option maxRecDepth 8000 in
/-- C5: `score("World Wide Web", "World Wide Web") = 100` and
`score("The Pacific Ocean", "Pacific Ocean") = 100 ≥ 90`, exactly as the
captured notebook output shows (`match_score` column, rows 0 and 2). -/
theorem claim_C5_documented_examples :
    score ("World Wide Web") ("World Wide Web") = 100 ∧
      score ("The Pacific Ocean") ("Pacific Ocean") = 100 ∧
      90 ≤ score ("The Pacific Ocean") ("Pacific Ocean") := by
  refine ⟨by decide, by decide, by decide⟩

/-! ## Lemmas: rendering -/

theorem render_covered (t : List Segment) (b : String → Option String) :
    Covers t b → render t b = .ok (substString t b) := by
  induction t with
  | nil =>
    intro _
    rfl
  | cons seg rest ih =>
    intro hcov
    rcases seg with s | n
    · have hrest : Covers rest b := by
        intro n hn
        exact hcov n hn
      simp [render, substString, ih hrest]
    · have hrest : Covers rest b := by
        intro n' hn'
        exact hcov n' (by simp [holesOf, hn'])
      rcases hb : b n with - | v
      · have hn : (b n).isSome := hcov n (by simp [holesOf])
        rw [hb] at hn
        simp at hn
      · simp [render, substString, hb, ih hrest]

theorem scanPlaceholders_no_open (l : List Char) :
    (∀ c ∈ l, c ≠ '\x7b') → scanPlaceholders l none = [] := by
  induction l with
  | nil =>
    intro _
    rfl
  | cons c rest ih =>
    intro h
    rw [scanPlaceholders]
    rw [if_neg (h c (by simp))]
    exact ih (fun c' hc' => h c' (by simp [hc']))

theorem substString_toList (t : List Segment) (b : String → Option String) :
    (substString t b).toList =
      (t.map (fun seg =>
        match seg with
        | .lit s => s.toList
        | .hole n => ((b n).getD ("")).toList)).flatten := by
  induction t with
  | nil => rfl
  | cons seg rest ih =>
    simp only [String.toList] at ih ⊢
    rcases seg with s | n
    · rw [substString]
      show (s.data ++ (substString rest b).data) = _
      simp [ih]
    · rw [substString]
      show ((((b n).getD ("")).data ++ (substString rest b).data)) = _
      simp [ih]

theorem substString_no_brace (t : List Segment) (b : String → Option String)
    (hbf : BraceFree t b) : ∀ c ∈ (substString t b).toList, c ≠ '\x7b' := by
  intro c hc
  rw [substString_toList] at hc
  rw [List.mem_flatten] at hc
  obtain ⟨l, hl, hcl⟩ := hc
  rw [List.mem_map] at hl
  obtain ⟨seg, hseg, hmap⟩ := hl
  have h := hbf seg hseg
  rcases seg with s | n
  · simp only [] at hmap h
    intro hceq
    subst hceq
    rw [← hmap] at hcl
    exact h hcl
  · simp only [] at hmap h
    rcases hb : b n with - | v
    · rw [hb] at hmap
      simp at hmap
      subst hmap
      simp [String.toList] at hcl
    · rw [hb] at hmap
      simp at hmap
      subst hmap
      intro hceq
      subst hceq
      exact h v hb hcl

/-- C3 (amended): for every template `T` and binding set `B` covering every
placeholder of `T`, `render(T, B)` succeeds and returns the full substitution —
every placeholder replaced by its bound value, all literal text verbatim and in
order; and, PROVIDED no literal segment and no bound value itself contains an
opening brace, re-extracting placeholders from the output yields none.  Without
that proviso the round-trip clause is false, because bound values are
interpolated unescaped (see `claim_C3_counterexample`). -/
theorem claim_C3_render_covered (t : List Segment) (b : String → Option String)
    (hcov : Covers t b) :
    render t b = .ok (substString t b) ∧
      (BraceFree t b → extractPlaceholders (substString t b) = []) := by
  refine ⟨render_covered t b hcov, fun hbf => ?_⟩
  unfold extractPlaceholders
  exact scanPlaceholders_no_open _ (substString_no_brace t b hbf)

/-- C3 (counterexample): with the covering binding `q := "\x7ba\x7d"` the
rendered output still contains placeholder syntax — re-extraction yields
`["a"]`, not `[]` — refuting the unconditional round-trip clause of the claim
(the code interpolates bound values with no escaping). -/
theorem claim_C3_counterexample :
    render [Segment.hole ("q")] (fun n => if n = ("q") then some ("\x7ba\x7d") else none) =
        .ok ("\x7ba\x7d") ∧
      extractPlaceholders ("\x7ba\x7d") = [("a")] := by
  constructor
  · rfl
  · rfl

/-- C3 (witness): the spec's end-to-end scenario — template `"Q: \x7bq\x7d\nA:"`
with binding `q := "What is 2+2?"` renders to exactly `"Q: What is 2+2?\nA:"`
and re-extraction finds no placeholder. -/
theorem claim_C3_witness :
    render [Segment.lit ("Q: "), Segment.hole ("q"), Segment.lit ("\nA:")]
        (fun n => if n = ("q") then some ("What is 2+2?") else none) =
        .ok ("Q: What is 2+2?\nA:") ∧
      extractPlaceholders ("Q: What is 2+2?\nA:") = [] := by
  have hcov : Covers [Segment.lit ("Q: "), Segment.hole ("q"), Segment.lit ("\nA:")]
      (fun n => if n = ("q") then some ("What is 2+2?") else none) := by
    intro n hn
    simp [holesOf] at hn
    subst hn
    simp
  have h := claim_C3_render_covered
    [Segment.lit ("Q: "), Segment.hole ("q"), Segment.lit ("\nA:")]
    (fun n => if n = ("q") then some ("What is 2+2?") else none) hcov
  have hbf : BraceFree [Segment.lit ("Q: "), Segment.hole ("q"), Segment.lit ("\nA:")]
      (fun n => if n = ("q") then some ("What is 2+2?") else none) := by
    intro seg hseg
    simp at hseg
    rcases hseg with h1 | h1 | h1
    · subst h1
      decide
    · subst h1
      intro v hv
      simp at hv
      subst hv
      decide
    · subst h1
      decide
  have hsub : substString [Segment.lit ("Q: "), Segment.hole ("q"), Segment.lit ("\nA:")]
      (fun n => if n = ("q") then some ("What is 2+2?") else none) =
      ("Q: What is 2+2?\nA:") := rfl
  constructor
  · rw [h.1, hsub]
  · have h2 := h.2 hbf
    rw [hsub] at h2
    exact h2

/-- C6: if some placeholder of the template has no binding, `render` fails with
`MissingBindingError` naming an unresolved placeholder (the first such one in
template order); it never silently drops the placeholder or substitutes a
default value — in particular it returns no `.ok` result. -/
theorem claim_C6_missing_binding (t : List Segment) (b : String → Option String)
    (h : ∃ n ∈ holesOf t, b n = none) :
    ∃ m ∈ holesOf t, b m = none ∧ render t b = .error (.MissingBindingError m) := by
  induction t with
  | nil =>
    obtain ⟨n, hn, -⟩ := h
    simp [holesOf] at hn
  | cons seg rest ih =>
    rcases seg with s | n
    · have h' : ∃ n ∈ holesOf rest, b n = none := by
        obtain ⟨n, hn, hnone⟩ := h
        exact ⟨n, by simpa [holesOf] using hn, hnone⟩
      obtain ⟨m, hm, hnone, herr⟩ := ih h'
      refine ⟨m, by simp [holesOf, hm], hnone, ?_⟩
      rw [render, herr]
    · rcases hb : b n with - | v
      · refine ⟨n, by simp [holesOf], hb, ?_⟩
        rw [render, hb]
      · have h' : ∃ n' ∈ holesOf rest, b n' = none := by
          obtain ⟨n', hn', hnone⟩ := h
          simp [holesOf] at hn'
          rcases hn' with rfl | hn'
          · rw [hb] at hnone
            cases hnone
          · exact ⟨n', hn', hnone⟩
        obtain ⟨m, hm, hnone, herr⟩ := ih h'
        refine ⟨m, by simp [holesOf, hm], hnone, ?_⟩
        rw [render, hb, herr]

/-- C6 (witness): a template whose only placeholder `q` is unbound fails with
`MissingBindingError "q"`. -/
theorem claim_C6_witness :
    render [Segment.hole ("q")] (fun _ => none) =
      .error (.MissingBindingError ("q")) := by
  obtain ⟨m, hm, -, herr⟩ := claim_C6_missing_binding [Segment.hole ("q")] (fun _ => none)
    ⟨("q"), by simp [holesOf], rfl⟩
  simp [holesOf] at hm
  subst hm
  exact herr

/-- C2: `aggregate` returns the arithmetic mean of all present per-record
scores, and fails with `EmptyBatchError` on the empty batch — and more
generally whenever no record has both `expected` and `predicted` populated —
rather than returning a value. -/
theorem claim_C2_aggregate_mean (rs : List EvaluationRecord) :
    aggregate ([] : List EvaluationRecord) = .error .EmptyBatchError ∧
      ((∀ r ∈ rs, scorable r = false) → aggregate rs = .error .EmptyBatchError) ∧
      ((∃ r ∈ rs, scorable r = true) →
        aggregate rs =
          .ok (((presentScores rs).map (fun n => (n : ℚ))).sum /
            (presentScores rs).length)) := by
  refine ⟨rfl, ?_, ?_⟩
  · intro h
    have hc : rs.all (fun r => !(scorable r)) = true := by
      rw [List.all_eq_true]
      intro r hr
      simp [h r hr]
    unfold aggregate
    rw [if_pos hc]
  · intro ⟨r, hr, hsc⟩
    have hc : ¬ (rs.all (fun r => !(scorable r)) = true) := by
      rw [List.all_eq_true]
      intro hall
      have hfalse := hall r hr
      rw [hsc] at hfalse
      simp at hfalse
    unfold aggregate
    rw [if_neg hc]

/-- C2 (witness): a singleton batch with a present score of 100 aggregates to
the mean 100, matching the notebook's captured `mean()` output of `100.0`;
the empty batch errs. -/
theorem claim_C2_witness :
    aggregate [{ input := ("q"), expected := some ("4"), predicted := some ("4"), score := some 100 }] = .ok 100 := by
  have h := (claim_C2_aggregate_mean [{ input := ("q"), expected := some ("4"), predicted := some ("4"), score := some 100 }]).2.2 ⟨{ input := ("q"), expected := some ("4"), predicted := some ("4"), score := some 100 }, by simp, rfl⟩
  rw [h]
  norm_num [presentScores, List.filterMap]

/-- C7: the bounded feedback loop invokes the external text-generation
collaborator exactly `n` times — the list of prompts actually sent to `gen`
has length exactly `n` for every collaborator `gen`, every fold `next`, every
iteration count `n` and every seed prompt; the loop has no opinion on the
responses' content and never stops early or continues past `n`. -/
theorem claim_C7_exactly_n_calls (gen next : String → String) (n : Nat) (seed : String) :
    ((feedbackLoop gen next n seed).2).length = n := by
  induction n generalizing seed with
  | zero => rfl
  | succ n ih =>
    rcases hfl : feedbackLoop gen next n (next (gen seed)) with ⟨final, sent⟩
    have h := ih (next (gen seed))
    rw [hfl] at h
    simp only [feedbackLoop, hfl]
    simpa using h

/-- C9: the source's feedback loop (`prefix = response.text`, fold = identity)
replaces the prompt wholesale at each step: the k-th prompt sent equals
`gen^[k] seed` — i.e. the seed at k = 0 and, for k ≥ 1, exactly the single
response text of iteration k-1 (all earlier prompts and responses discarded) —
and after the loop the prefix variable holds the last response `gen^[n] seed`
alone. -/
theorem claim_C9_wholesale_replacement (gen : String → String) (n : Nat) (seed : String) :
    (feedbackLoop gen id n seed).1 = gen^[n] seed ∧
      ∀ k, k < n → ((feedbackLoop gen id n seed).2)[k]? = some (gen^[k] seed) := by
  induction n generalizing seed with
  | zero =>
    refine ⟨rfl, ?_⟩
    intro k hk
    omega
  | succ n ih =>
    rcases hfl : feedbackLoop gen id n (gen seed) with ⟨final, sent⟩
    have h := ih (gen seed)
    rw [hfl] at h
    constructor
    · simp only [feedbackLoop, id_eq, hfl]
      simpa [Function.iterate_succ_apply] using h.1
    · intro k hk
      simp only [feedbackLoop, id_eq, hfl]
      rcases k with - | k
      · simp
      · have h2 := h.2 k (by omega)
        simpa [Function.iterate_succ_apply] using h2

/-- C9 (witness): three iterations from seed `"p"` with a collaborator that
appends `"!"`: the prompt of iteration 2 is the response `"p!!"` of iteration 1
alone, and the final prefix is the last response `"p!!!"`. -/
theorem claim_C9_witness :
    (feedbackLoop (fun s => s ++ ("!")) id 3 ("p")).1 = ("p!!!") ∧
      ((feedbackLoop (fun s => s ++ ("!")) id 3 ("p")).2)[2]? = some ("p!!") := by
  have h := claim_C9_wholesale_replacement (fun s => s ++ ("!")) 3 ("p")
  refine ⟨?_, ?_⟩
  · rw [h.1]
    rfl
  · rw [h.2 2 (by omega)]
    rfl

/-- C8: a successful batch run returns exactly one `EvaluationRecord` per
input, ordered to match the input order: the output has the same length as the
input collection, and the record at every position carries that position's
input text and expected value. -/
theorem claim_C8_batch_order (gen : String → String) (t : List Segment)
    (mkB : String → String → Option String) (inputs : List (String × Option String))
    (recs : List EvaluationRecord) (h : runBatch gen t mkB inputs = .ok recs) :
    recs.length = inputs.length ∧
      ∀ i : Nat, (recs[i]?).map (fun r => r.input) = (inputs[i]?).map (fun p => p.1) ∧
        (recs[i]?).map (fun r => r.expected) = (inputs[i]?).map (fun p => p.2) := by
  induction inputs generalizing recs with
  | nil =>
    rw [runBatch] at h
    injection h with h
    subst h
    refine ⟨rfl, ?_⟩
    intro i
    simp
  | cons pair rest ih =>
    rcases pair with ⟨inp, expd⟩
    rw [runBatch] at h
    rcases hr : render t (mkB inp) with e | p
    · rw [hr] at h
      simp at h
    · rw [hr] at h
      rcases hb : runBatch gen t mkB rest with e | recs'
      · rw [hb] at h
        simp at h
      · rw [hb] at h
        simp only [] at h
        injection h with h
        subst h
        have hrest := ih recs' hb
        constructor
        · simp [hrest.1]
        · intro i
          rcases i with - | i
          · simp
          · have h2 := hrest.2 i
            simpa using h2

/-- C8 (witness): the spec's end-to-end scenario as a one-element batch: one
record out for one input in, at the same position, carrying the input's text
and expected value. -/
theorem claim_C8_witness :
    ([{ input := ("What is 2+2?"), expected := some ("4"), predicted := some ("4"), score := some 100 }] : List EvaluationRecord).length =
        ([(("What is 2+2?"), some ("4"))] : List (String × Option String)).length ∧
      (([{ input := ("What is 2+2?"), expected := some ("4"), predicted := some ("4"), score := some 100 }] : List EvaluationRecord)[0]?).map (fun r => r.input) =
        (([(("What is 2+2?"), some ("4"))] : List (String × Option String))[0]?).map
          (fun p => p.1) := by
  have h := claim_C8_batch_order (fun _ => ("4"))
    [Segment.lit ("Q: "), Segment.hole ("q"), Segment.lit ("\nA:")]
    (fun inp => fun n => if n = ("q") then some inp else none)
    [(("What is 2+2?"), some ("4"))]
    [{ input := ("What is 2+2?"), expected := some ("4"), predicted := some ("4"), score := some 100 }] (by rfl)
  exact ⟨h.1, (h.2 0).1⟩

/-- C10: the per-record prompt builders interpolate the input string verbatim:
the rendered prompt is exactly the fixed literal prefix segment, then `s`
unchanged (no escaping, truncation, or case normalisation), then the fixed
literal suffix segment — so `s` occurs as a contiguous substring between the
fixed literals of the template. -/
theorem claim_C10_verbatim_interpolation (s : String) :
    get_answer_prompt s = qaPre ++ s ++ qaPost ∧
      get_sentiment_prompt s = sentimentPre ++ s ++ sentimentPost ∧
      (∃ l r, (get_answer_prompt s).toList = l ++ s.toList ++ r) ∧
      (∃ l r, (get_sentiment_prompt s).toList = l ++ s.toList ++ r) :=
  ⟨rfl, rfl, ⟨qaPre.toList, qaPost.toList, rfl⟩,
    ⟨sentimentPre.toList, sentimentPost.toList, rfl⟩⟩
